import Mathlib

/-!
# Tile-map editor (`src/App.jsx`): grid, paint controller, render grouping, import/export

A shallow embedding of the editor's core logic.

* A TileId is a natural number; the grid (`map`) is a list of rows of TileIds.
* The React state `map`, `selectedEmoji` and the ref `drawing` form `EditorState`;
  every event handler is a function on that state.  Each event is handled to
  completion before the next one (state updaters are applied in order).
* `Option` results: `none` stands for a JavaScript exception (a `TypeError` on
  `undefined[...]`) or for a value that leaves the TileId-matrix domain.
* `JSON.parse` and `JSON.stringify` are host built-ins, not code of the repository:
  they are parameters of the embedding, and a parsed document is a `JsonValue`.
-/

namespace MapEditor

/-! ## Catalog (lines 12-24) -/

/-- Source: `const floorEmoji`. -/
def floorEmoji : List String := ["▫️"]

/-- Source: `const wallEmoji`. -/
def wallEmoji : List String := ["⬛", "🌲", "🏠", "🏡", "🏘️", "🏚️", "🔥", "⛺"]

/-- Source: `const enemyEmojis`. -/
def enemyEmojis : List String := ["💀", "🐍", "👻", "🧌", "👹", "🐺", "⚔️"]

/-- Source: `const npcEmojis`. -/
def npcEmojis : List String := ["👩🏻‍🦰", "🧙‍♂️"]

/-- Source: `const rewardEmojis`. -/
def rewardEmojis : List String := ["💰", "🌿", "❓", "💎"]

/-- Source: `const allEmojis = [...floorEmoji, ...wallEmoji, ...enemyEmojis, ...npcEmojis,
...rewardEmojis]`. -/
def allEmojis : List String :=
  floorEmoji ++ wallEmoji ++ enemyEmojis ++ npcEmojis ++ rewardEmojis

/-- Source: `const emojiGroups`. -/
def emojiGroups : List (List String) :=
  [floorEmoji, wallEmoji, enemyEmojis, npcEmojis, rewardEmojis]

/-! ## Grid (lines 26-33) -/

/-- Source: `const rows = 30`. -/
def rows : Nat := 30

/-- Source: `const cols = 10`. -/
def cols : Nat := 10

/-- The `map` state: rows of TileIds. -/
abbrev Grid := List (List Nat)

/-- Source: the initial `map`, `Array.from({ length: rows }, () => Array(cols).fill(0))`. -/
def initialMap : Grid := List.replicate rows (List.replicate cols 0)

/-- A grid of exactly `rows` rows of exactly `cols` cells. -/
def WellShaped (map : Grid) : Prop :=
  map.length = rows ∧ ∀ row ∈ map, row.length = cols

instance (map : Grid) : Decidable (WellShaped map) := by
  unfold WellShaped; infer_instance

/-- Every cell is a valid TileId, an index into `allEmojis`. -/
def ValidTiles (map : Grid) : Prop :=
  ∀ row ∈ map, ∀ idx ∈ row, idx < allEmojis.length

instance (map : Grid) : Decidable (ValidTiles map) := by
  unfold ValidTiles; infer_instance

/-- The read `map[i][j]`; `none` when the row or the cell does not exist. -/
def getCell (map : Grid) (i j : Nat) : Option Nat :=
  match map[i]? with
  | none => none
  | some row => row[j]?

/-! ## Painting (lines 56-79) -/

/-- Source: the updater of `paintCell(i, j)`:
`next = prev.map(r => r.slice()); next[i][j] = selectedEmoji; return next`.
`next[i]` undefined raises a `TypeError` (`none`).  A write at `j = row.length` extends the
row by one cell.  A write at `j > row.length` leaves holes before `j`: the row is then a
sparse JavaScript array, which is not a list of TileIds (`none`). -/
def paintCell (selectedEmoji i j : Nat) (prev : Grid) : Option Grid :=
  match prev[i]? with
  | none => none
  | some row =>
    if j < row.length then some (prev.set i (row.set j selectedEmoji))
    else if j = row.length then some (prev.set i (row ++ [selectedEmoji]))
    else none

/-- The state the handlers read and write: `map`, `selectedEmoji`, `drawing.current`. -/
structure EditorState where
  map : Grid
  selectedEmoji : Nat
  drawing : Bool
deriving DecidableEq, Repr

/-- Source: the initial state, `selectedEmoji = 1`, `drawing = false`. -/
def initialState : EditorState :=
  { map := initialMap, selectedEmoji := 1, drawing := false }

/-- Source: `handlePointerDown(e, i, j)`: only `e.button === 0` starts drawing and paints. -/
def handlePointerDown (s : EditorState) (button i j : Nat) : Option EditorState :=
  if button = 0 then
    match paintCell s.selectedEmoji i j s.map with
    | none => none
    | some next => some { s with drawing := true, map := next }
  else some s

/-- Source: `handlePointerUp`: `drawing.current = false`. -/
def handlePointerUp (s : EditorState) : EditorState :=
  { s with drawing := false }

/-- Source: `handlePointerOver(e, i, j)`: `if (drawing.current) paintCell(i, j)`. -/
def handlePointerOver (s : EditorState) (i j : Nat) : Option EditorState :=
  if s.drawing then
    match paintCell s.selectedEmoji i j s.map with
    | none => none
    | some next => some { s with map := next }
  else some s

/-! ## Palette (lines 133-146) -/

/-- Source: `globalIndex = emojiGroups.slice(0, gi).reduce((sum, g) => sum + g.length, 0) + idx`. -/
def globalIndex (gi idx : Nat) : Nat :=
  (emojiGroups.take gi).foldl (fun sum g => sum + g.length) 0 + idx

/-- The toolbar renders one button for each position `idx` of each group `gi`. -/
def ButtonExists (gi idx : Nat) : Prop :=
  ∃ group, emojiGroups[gi]? = some group ∧ idx < group.length

/-- Source: the click handler of the button at `(gi, idx)`: `setSelectedEmoji(globalIndex)`.
There is no button to click when `(gi, idx)` is not a position of `emojiGroups` (`none`). -/
def clickButton (s : EditorState) (gi idx : Nat) : Option EditorState :=
  match emojiGroups[gi]? with
  | none => none
  | some group =>
    if idx < group.length then some { s with selectedEmoji := globalIndex gi idx } else none

/-! ## Import and export (lines 82-115) -/

/-- A parsed JSON document, the result of the host's `JSON.parse`.  A number keeps its
literal text: import never looks inside it. -/
inductive JsonValue where
  | null
  | bool (b : Bool)
  | number (literal : String)
  | string (s : String)
  | array (items : List JsonValue)
  | object (members : List (String × JsonValue))

/-- The three `alert` outcomes of `reader.onload`. -/
inductive Alert where
  | badShape
  | imported
  | parseError
deriving DecidableEq, Repr

/-- Source: `Array.isArray(row) && row.length === cols`. -/
def rowOk : JsonValue → Bool
  | .array items => items.length == cols
  | _ => false

/-- Source: the rejection test
`!Array.isArray(importedMap) || importedMap.length !== rows || !importedMap.every(rowOk)`. -/
def shapeRejected : JsonValue → Bool
  | .array rs => rs.length != rows || !rs.all rowOk
  | _ => true

/-- Source: `glyph === emoji` inside `indexOf`: strict equality of a catalog string with a
parsed value holds only for an equal string. -/
def strictEq (glyph : String) : JsonValue → Bool
  | .string s => glyph == s
  | _ => false

/-- Source: `xs.indexOf(emoji)`, counting from `start`; `none` is the result `-1`. -/
def indexOfFrom (emoji : JsonValue) : List String → Nat → Option Nat
  | [], _ => none
  | glyph :: rest, start =>
    if strictEq glyph emoji then some start else indexOfFrom emoji rest (start + 1)

/-- Source: `allEmojis.indexOf(emoji)`. -/
def indexOf (emoji : JsonValue) : Option Nat :=
  indexOfFrom emoji allEmojis 0

/-- Source: `idx !== -1 ? idx : 0`. -/
def convertCell (emoji : JsonValue) : Nat :=
  match indexOf emoji with
  | some idx => idx
  | none => 0

/-- Source: `row.map(emoji => ...)`; `.map` on a value that is not an array is a
`TypeError` (`none`). -/
def convertRow : JsonValue → Option (List Nat)
  | .array items => some (items.map convertCell)
  | _ => none

/-- Source: `newMap = importedMap.map(row => row.map(...))`. -/
def convertMap : JsonValue → Option Grid
  | .array rs => rs.mapM convertRow
  | _ => none

/-- Source: the body of `reader.onload` after `JSON.parse`: `parsed = none` is a thrown
`SyntaxError`.  The result is the `map` state afterwards and the alert shown. -/
def importParsed (parsed : Option JsonValue) (map : Grid) : Grid × Alert :=
  match parsed with
  | none => (map, .parseError)
  | some importedMap =>
    if shapeRejected importedMap then (map, .badShape)
    else
      match convertMap importedMap with
      | some newMap => (newMap, .imported)
      | none => (map, .parseError)

/-- Source: `reader.onload`, with the host's `JSON.parse` as a parameter. -/
def onload (jsonParse : String → Option JsonValue) (text : String) (map : Grid) :
    Grid × Alert :=
  importParsed (jsonParse text) map

/-- Source: `allEmojis[idx]` inside a document: an index outside the catalog reads
`undefined`, which `JSON.stringify` writes as `null`. -/
def glyphAt (idx : Nat) : JsonValue :=
  match allEmojis[idx]? with
  | some glyph => .string glyph
  | none => .null

/-- Source: the document exported, `map.map(row => row.map(idx => allEmojis[idx]))`. -/
def glyphMatrix (map : Grid) : JsonValue :=
  .array (map.map (fun row => .array (row.map glyphAt)))

/-- Source: `exportMap`, with the host's `JSON.stringify` as a parameter. -/
def exportMap (jsonStringify : JsonValue → String) (map : Grid) : String :=
  jsonStringify (glyphMatrix map)

/-! ## Events and the editor as a state machine -/

/-- The events delivered to the application.  `pointerLeave` is the pointer leaving the
canvas: the `Canvas` element registers `onPointerUp` and `onContextMenu` only. -/
inductive Event where
  | pointerDown (button i j : Nat)
  | pointerOver (i j : Nat)
  | pointerUp
  | pointerLeave
  | clickButton (gi idx : Nat)
  | fileLoaded (text : String)

/-- One event handled to completion. -/
def step (jsonParse : String → Option JsonValue) (s : EditorState) : Event → Option EditorState
  | .pointerDown button i j => handlePointerDown s button i j
  | .pointerOver i j => handlePointerOver s i j
  | .pointerUp => some (handlePointerUp s)
  | .pointerLeave => some s
  | .clickButton gi idx => clickButton s gi idx
  | .fileLoaded text => some { s with map := (onload jsonParse text s.map).1 }

/-- Events handled in the order received. -/
def run (jsonParse : String → Option JsonValue) (s : EditorState) :
    List Event → Option EditorState
  | [] => some s
  | e :: es =>
    match step jsonParse s e with
    | none => none
    | some s1 => run jsonParse s1 es

/-- An event the page can deliver: pointer events carry the coordinates of a rendered
cell, a click comes from a rendered button. -/
def Event.Deliverable : Event → Prop
  | .pointerDown _ i j => i < rows ∧ j < cols
  | .pointerOver i j => i < rows ∧ j < cols
  | .pointerUp => True
  | .pointerLeave => True
  | .clickButton gi idx => ButtonExists gi idx
  | .fileLoaded _ => True

/-- A pointer-down with the primary button. -/
def Event.isPrimaryDown : Event → Bool
  | .pointerDown button _ _ => button == 0
  | _ => false

/-- The events of one drag: pointer-down on `c0`, pointer-over on each of `cs`, pointer-up. -/
def dragEvents (c0 : Nat × Nat) (cs : List (Nat × Nat)) : List Event :=
  Event.pointerDown 0 c0.1 c0.2 :: (cs.map (fun c => Event.pointerOver c.1 c.2) ++ [Event.pointerUp])

/-! ## Render grouping (lines 118-128) -/

/-- The `groups` object: TileId keys, each with its array of `[i, j]` coordinates.  The
list keeps the keys in the order they were created; the order in which JavaScript
enumerates the keys of an object is not modelled, and no statement below depends on it. -/
abbrev Groups := List (Nat × List (Nat × Nat))

/-- Source: the read `groups[idx]`; `none` is `undefined`. -/
def getGroup (groups : Groups) (idx : Nat) : Option (List (Nat × Nat)) :=
  match groups with
  | [] => none
  | (k, cells) :: rest => if k = idx then some cells else getGroup rest idx

/-- Source: `if (!groups[idx]) groups[idx] = []` (an array is never falsy). -/
def ensureGroup (groups : Groups) (idx : Nat) : Groups :=
  match getGroup groups idx with
  | none => groups ++ [(idx, [])]
  | some _ => groups

/-- Source: `groups[idx].push([i, j])`. -/
def pushCell (groups : Groups) (idx : Nat) (c : Nat × Nat) : Groups :=
  groups.map (fun kv => if kv.1 = idx then (kv.1, kv.2 ++ [c]) else kv)

/-- Source: the loop body for the cell `(i, j)`. -/
def groupCell (map : Grid) (i : Nat) (groups : Groups) (j : Nat) : Option Groups :=
  match getCell map i j with
  | none => none
  | some idx => some (pushCell (ensureGroup groups idx) idx (i, j))

/-- Source: the inner loop `for (let j = 0; j < cols; j++)`. -/
def groupRow (map : Grid) (groups : Groups) (i : Nat) : Option Groups :=
  (List.range cols).foldlM (groupCell map i) groups

/-- Source: `grouped`: `groups = {}` and the outer loop `for (let i = 0; i < rows; i++)`. -/
def grouped (map : Grid) : Option Groups :=
  (List.range rows).foldlM (groupRow map) []

/-- The keys of a `groups` object. -/
def groupKeys (groups : Groups) : List Nat := groups.map Prod.fst

/-- All coordinates in scan order: row 0 first, then by column. -/
def scanOrder : List (Nat × Nat) :=
  (List.range rows).flatMap (fun i => (List.range cols).map (fun j => (i, j)))

/-- The coordinates whose cell holds `t`, in scan order. -/
def cellsHolding (map : Grid) (t : Nat) : List (Nat × Nat) :=
  scanOrder.filter (fun c => getCell map c.1 c.2 == some t)

/-- An input matrix of the right shape: each row starts with a glyph that is not in the
catalog, followed by wall glyphs. -/
def unknownGlyphMatrix : List (List JsonValue) :=
  List.replicate rows (JsonValue.string "🚀" :: List.replicate 9 (JsonValue.string "⬛"))

/-- A 30x10 grid that holds every TileId of the catalog, some of them in several cells. -/
def sampleMap : Grid :=
  [0, 1, 2, 3, 4, 5, 6, 7, 8, 9] ::
  [10, 11, 12, 13, 14, 15, 16, 17, 18, 19] ::
  [20, 21, 0, 5, 5, 2, 0, 1, 1, 0] ::
  List.replicate 27 (List.replicate cols 0)

/-- The TileIds held by at least one cell, each once. -/
def distinctTiles (map : Grid) : List Nat := map.flatten.dedup

/-! ## Palette indexing -/

theorem buttonExists_iff (gi idx : Nat) :
    ButtonExists gi idx ↔ idx < (emojiGroups.getD gi []).length := by
  unfold ButtonExists
  cases h : emojiGroups[gi]? <;> simp [List.getD, h]

theorem buttonExists_bounds {gi idx : Nat} (h : ButtonExists gi idx) : gi < 5 ∧ idx < 8 := by
  obtain ⟨group, hg, hi⟩ := h
  have hgi : gi < 5 := by
    have := (List.getElem?_eq_some.mp hg).1
    simpa [emojiGroups] using this
  refine ⟨hgi, ?_⟩
  interval_cases gi <;> simp [emojiGroups] at hg <;> subst hg <;>
    simp [floorEmoji, wallEmoji, enemyEmojis, npcEmojis, rewardEmojis] at hi <;> omega

theorem allEmojis_length : allEmojis.length = 22 := by decide

/-- C10: every button's `globalIndex` is a valid TileId whose catalog glyph is the glyph
shown on the button; distinct buttons have distinct indices; every TileId of the catalog
is the index of a button. -/
theorem globalIndex_consistent :
    (∀ gi idx group glyph, emojiGroups[gi]? = some group → group[idx]? = some glyph →
      globalIndex gi idx < allEmojis.length ∧ allEmojis[globalIndex gi idx]? = some glyph) ∧
    (∀ gi idx gi2 idx2, ButtonExists gi idx → ButtonExists gi2 idx2 →
      globalIndex gi idx = globalIndex gi2 idx2 → gi = gi2 ∧ idx = idx2) ∧
    (∀ t, t < allEmojis.length → ∃ gi idx, ButtonExists gi idx ∧ globalIndex gi idx = t) := by
  refine ⟨?_, ?_, ?_⟩
  · intro gi idx group glyph hg hi
    have hb : ButtonExists gi idx := ⟨group, hg, (List.getElem?_eq_some.mp hi).1⟩
    obtain ⟨h1, h2⟩ := buttonExists_bounds hb
    interval_cases gi <;> simp [emojiGroups] at hg <;> subst hg <;>
      interval_cases idx <;>
      simp [floorEmoji, wallEmoji, enemyEmojis, npcEmojis, rewardEmojis] at hi <;>
      subst hi <;> decide
  · intro gi idx gi2 idx2 h1 h2 heq
    obtain ⟨a1, a2⟩ := buttonExists_bounds h1
    obtain ⟨b1, b2⟩ := buttonExists_bounds h2
    rw [buttonExists_iff] at h1 h2
    interval_cases gi <;> interval_cases gi2 <;>
      simp [globalIndex, emojiGroups, floorEmoji, wallEmoji, enemyEmojis, npcEmojis,
        rewardEmojis] at h1 h2 heq ⊢ <;> omega
  · intro t ht
    rw [allEmojis_length] at ht
    have key : ∀ gi idx, idx < (emojiGroups.getD gi []).length → globalIndex gi idx = t →
        ∃ gi idx, ButtonExists gi idx ∧ globalIndex gi idx = t :=
      fun gi idx h1 h2 => ⟨gi, idx, (buttonExists_iff gi idx).mpr h1, h2⟩
    interval_cases t
    · exact key 0 0 (by decide) (by decide)
    · exact key 1 0 (by decide) (by decide)
    · exact key 1 1 (by decide) (by decide)
    · exact key 1 2 (by decide) (by decide)
    · exact key 1 3 (by decide) (by decide)
    · exact key 1 4 (by decide) (by decide)
    · exact key 1 5 (by decide) (by decide)
    · exact key 1 6 (by decide) (by decide)
    · exact key 1 7 (by decide) (by decide)
    · exact key 2 0 (by decide) (by decide)
    · exact key 2 1 (by decide) (by decide)
    · exact key 2 2 (by decide) (by decide)
    · exact key 2 3 (by decide) (by decide)
    · exact key 2 4 (by decide) (by decide)
    · exact key 2 5 (by decide) (by decide)
    · exact key 2 6 (by decide) (by decide)
    · exact key 3 0 (by decide) (by decide)
    · exact key 3 1 (by decide) (by decide)
    · exact key 4 0 (by decide) (by decide)
    · exact key 4 1 (by decide) (by decide)
    · exact key 4 2 (by decide) (by decide)
    · exact key 4 3 (by decide) (by decide)

/-! ## Painting one cell -/

theorem paintCell_eq_some {t i j : Nat} {prev : Grid} {row : List Nat}
    (hi : prev[i]? = some row) (hj : j < row.length) :
    paintCell t i j prev = some (prev.set i (row.set j t)) := by
  simp [paintCell, hi, hj]

theorem getCell_set (prev : Grid) (row : List Nat) (t i j i2 j2 : Nat)
    (hi : prev[i]? = some row) (hj : j < row.length) :
    getCell (prev.set i (row.set j t)) i2 j2 =
      if (i2, j2) = (i, j) then some t else getCell prev i2 j2 := by
  have hlen : i < prev.length := (List.getElem?_eq_some.mp hi).1
  unfold getCell
  by_cases h1 : i2 = i
  · subst h1
    by_cases h2 : j2 = j
    · subst h2
      simp [List.getElem?_set, hlen, hj]
    · have h2b : ¬ j = j2 := fun h => h2 h.symm
      simp [List.getElem?_set, hlen, hi, h2, h2b]
  · have h1b : ¬ i = i2 := fun h => h1 h.symm
    simp [List.getElem?_set, h1, h1b]

theorem wellShaped_row {map : Grid} (h : WellShaped map) {i : Nat} (hi : i < rows) :
    ∃ row, map[i]? = some row ∧ row.length = cols := by
  have hlen : i < map.length := by rw [h.1]; exact hi
  exact ⟨map[i], List.getElem?_eq_getElem hlen, h.2 _ (List.getElem_mem hlen)⟩

theorem wellShaped_set {map : Grid} (h : WellShaped map) (i : Nat) (row : List Nat)
    (hrow : row.length = cols) : WellShaped (map.set i row) := by
  refine ⟨by rw [List.length_set]; exact h.1, ?_⟩
  intro r hr
  rcases List.mem_or_eq_of_mem_set hr with hr | hr
  · exact h.2 r hr
  · rw [hr]; exact hrow

theorem validTiles_set {map : Grid} (h : ValidTiles map) (i j t : Nat) (row : List Nat)
    (hi : map[i]? = some row) (ht : t < allEmojis.length) :
    ValidTiles (map.set i (row.set j t)) := by
  intro r hr x hx
  rcases List.mem_or_eq_of_mem_set hr with hr | hr
  · exact h r hr x hx
  · subst hr
    rcases List.mem_or_eq_of_mem_set hx with hx | hx
    · exact h row (List.getElem?_mem hi) x hx
    · rw [hx]; exact ht

/-- C3: painting an in-bounds cell `(i, j)` with the selected TileId `t` yields a grid that
holds `t` at `(i, j)`, the previous value at every other cell, and has the dimensions of
the previous grid. -/
theorem paintCell_local (t i j : Nat) (prev : Grid) (row : List Nat)
    (hi : prev[i]? = some row) (hj : j < row.length) :
    ∃ next : Grid, paintCell t i j prev = some next ∧
      getCell next i j = some t ∧
      (∀ i2 j2, (i2, j2) ≠ (i, j) → getCell next i2 j2 = getCell prev i2 j2) ∧
      next.length = prev.length ∧
      (∀ k : Nat, (next[k]?).map List.length = (prev[k]?).map List.length) ∧
      (WellShaped prev → WellShaped next) := by
  refine ⟨_, paintCell_eq_some hi hj, ?_, ?_, ?_, ?_, ?_⟩
  · rw [getCell_set prev row t i j i j hi hj]; simp
  · intro i2 j2 hne
    rw [getCell_set prev row t i j i2 j2 hi hj]; simp [hne]
  · simp
  · intro k
    by_cases hk : i = k
    · subst hk
      have hlen : i < prev.length := (List.getElem?_eq_some.mp hi).1
      simp [List.getElem?_set, hlen, hi]
    · simp [List.getElem?_set, hk]
  · intro hw
    have hrow : row.length = cols := hw.2 row (List.getElem?_mem hi)
    exact wellShaped_set hw i _ (by simpa using hrow)

/-- Witness for C3: painting TileId 5 at `(2, 3)` of the initial grid. -/
theorem paintCell_local_witness :
    ∃ next : Grid, paintCell 5 2 3 initialMap = some next ∧
      getCell next 2 3 = some 5 ∧
      (∀ i2 j2, (i2, j2) ≠ (2, 3) → getCell next i2 j2 = getCell initialMap i2 j2) ∧
      next.length = initialMap.length ∧
      (∀ k : Nat, (next[k]?).map List.length = (initialMap[k]?).map List.length) ∧
      (WellShaped initialMap → WellShaped next) :=
  paintCell_local 5 2 3 initialMap (List.replicate cols 0) (by decide) (by decide)

/-! ## Import: glyph lookup -/

theorem allEmojis_nodup : allEmojis.Nodup := by decide

theorem indexOfFrom_spec (emoji : JsonValue) (xs : List String) (start k : Nat)
    (h : indexOfFrom emoji xs start = some k) :
    start ≤ k ∧ k < start + xs.length ∧ ∃ glyph, xs[k - start]? = some glyph ∧
      emoji = .string glyph := by
  induction xs generalizing start with
  | nil => simp [indexOfFrom] at h
  | cons x rest ih =>
    unfold indexOfFrom at h
    split at h
    · rename_i heq
      cases emoji <;> simp [strictEq] at heq
      simp at h
      subst h
      subst heq
      simp
    · obtain ⟨h1, h2, glyph, h3, h4⟩ := ih (start + 1) h
      refine ⟨by omega, by simp; omega, glyph, ?_, h4⟩
      have : k - start = (k - (start + 1)) + 1 := by omega
      rw [this]
      simpa using h3

theorem indexOfFrom_none (emoji : JsonValue) (xs : List String) (start : Nat)
    (h : ∀ glyph ∈ xs, emoji ≠ .string glyph) : indexOfFrom emoji xs start = none := by
  induction xs generalizing start with
  | nil => rfl
  | cons x rest ih =>
    unfold indexOfFrom
    have hx : strictEq x emoji = false := by
      cases emoji <;> simp [strictEq]
      rename_i s
      intro hxs
      exact h x (List.mem_cons_self _ _) (by rw [hxs])
    rw [hx]
    simpa using ih (start + 1) (fun g hg => h g (List.mem_cons_of_mem _ hg))

theorem convertCell_lt (emoji : JsonValue) : convertCell emoji < allEmojis.length := by
  unfold convertCell indexOf
  split
  · rename_i idx h
    have := (indexOfFrom_spec _ _ _ _ h).2.1
    omega
  · decide

theorem convertCell_unknown (emoji : JsonValue)
    (h : ∀ glyph ∈ allEmojis, emoji ≠ .string glyph) : convertCell emoji = 0 := by
  unfold convertCell indexOf
  rw [indexOfFrom_none emoji allEmojis 0 h]

theorem convertCell_glyph (n : Nat) (glyph : String) (h : allEmojis[n]? = some glyph) :
    convertCell (.string glyph) = n := by
  have hn : n < 22 := by
    have := (List.getElem?_eq_some.mp h).1
    rwa [allEmojis_length] at this
  interval_cases n <;>
    simp [allEmojis, floorEmoji, wallEmoji, enemyEmojis, npcEmojis, rewardEmojis] at h <;>
    subst h <;> decide

theorem convertCell_glyphAt (idx : Nat) (h : idx < allEmojis.length) :
    convertCell (glyphAt idx) = idx := by
  unfold glyphAt
  rw [List.getElem?_eq_getElem h]
  exact convertCell_glyph idx _ (List.getElem?_eq_getElem h)

/-! ## Import: shape check and conversion -/

theorem rowOk_iff (v : JsonValue) :
    rowOk v = true ↔ ∃ items, v = .array items ∧ items.length = cols := by
  cases v <;> simp [rowOk]

theorem shapeRejected_eq_false_iff (v : JsonValue) :
    shapeRejected v = false ↔
      ∃ matrix : List (List JsonValue), v = .array (matrix.map .array) ∧
        matrix.length = rows ∧ ∀ r ∈ matrix, r.length = cols := by
  constructor
  · intro h
    cases v <;> simp [shapeRejected] at h
    rename_i rs
    obtain ⟨hlen, hall⟩ := h
    have hrows : ∀ r ∈ rs, ∃ items, r = .array items ∧ items.length = cols :=
      fun r hr => (rowOk_iff r).mp (hall r hr)
    clear hall
    have : ∃ matrix : List (List JsonValue), rs = matrix.map .array ∧
        ∀ r ∈ matrix, r.length = cols := by
      clear hlen
      induction rs with
      | nil => exact ⟨[], rfl, by simp⟩
      | cons r rest ih =>
        obtain ⟨items, hr, hitems⟩ := hrows r (List.mem_cons_self _ _)
        obtain ⟨m, hm, hlenm⟩ := ih (fun x hx => hrows x (List.mem_cons_of_mem _ hx))
        refine ⟨items :: m, by simp [hr, hm], ?_⟩
        intro x hx
        rcases List.mem_cons.mp hx with hx | hx
        · rw [hx]; exact hitems
        · exact hlenm x hx
    obtain ⟨m, hm, hlenm⟩ := this
    refine ⟨m, by rw [hm], ?_, hlenm⟩
    rw [hm] at hlen
    simpa using hlen
  · rintro ⟨m, rfl, hlen, hcols⟩
    simp only [shapeRejected, Bool.or_eq_false_iff]
    refine ⟨by simp [hlen], ?_⟩
    simp only [Bool.not_eq_false', List.all_eq_true, List.mem_map]
    rintro x ⟨r, hr, rfl⟩
    simp [rowOk, hcols r hr]

theorem convertMap_matrix (matrix : List (List JsonValue)) :
    convertMap (.array (matrix.map .array)) =
      some (matrix.map (fun r => r.map convertCell)) := by
  have h : (matrix.map JsonValue.array).mapM convertRow =
      some (matrix.map (fun r => r.map convertCell)) := by
    induction matrix with
    | nil => rfl
    | cons r rest ih =>
      simp only [List.map_cons, List.mapM_cons, ih, convertRow]
      rfl
  simpa [convertMap] using h

theorem importParsed_matrix (matrix : List (List JsonValue)) (cur : Grid)
    (hrows : matrix.length = rows) (hcols : ∀ r ∈ matrix, r.length = cols) :
    importParsed (some (.array (matrix.map .array))) cur =
      (matrix.map (fun r => r.map convertCell), .imported) := by
  have h : shapeRejected (.array (matrix.map .array)) = false :=
    (shapeRejected_eq_false_iff _).mpr ⟨matrix, rfl, hrows, hcols⟩
  simp [importParsed, h, convertMap_matrix]

theorem importParsed_cases (parsed : Option JsonValue) (cur : Grid) :
    importParsed parsed cur = (cur, .parseError) ∨ importParsed parsed cur = (cur, .badShape) ∨
      ∃ matrix : List (List JsonValue), parsed = some (.array (matrix.map .array)) ∧
        matrix.length = rows ∧ (∀ r ∈ matrix, r.length = cols) ∧
        importParsed parsed cur = (matrix.map (fun r => r.map convertCell), .imported) := by
  cases parsed with
  | none => left; rfl
  | some v =>
    by_cases h : shapeRejected v = true
    · right; left; simp [importParsed, h]
    · right; right
      have h2 : shapeRejected v = false := by simpa using h
      obtain ⟨m, rfl, hlen, hcols⟩ := (shapeRejected_eq_false_iff v).mp h2
      exact ⟨m, rfl, hlen, hcols, importParsed_matrix m cur hlen hcols⟩

theorem converted_wellShaped (matrix : List (List JsonValue))
    (hrows : matrix.length = rows) (hcols : ∀ r ∈ matrix, r.length = cols) :
    WellShaped (matrix.map (fun r => r.map convertCell)) ∧
      ValidTiles (matrix.map (fun r => r.map convertCell)) := by
  constructor
  · refine ⟨by simpa using hrows, ?_⟩
    intro row hrow
    obtain ⟨r, hr, rfl⟩ := List.mem_map.mp hrow
    simpa using hcols r hr
  · intro row hrow x hx
    obtain ⟨r, _, rfl⟩ := List.mem_map.mp hrow
    obtain ⟨e, _, rfl⟩ := List.mem_map.mp hx
    exact convertCell_lt e

/-- C2: for a 30x10 grid of valid TileIds, importing the exported glyph matrix is accepted
and yields the original grid, whatever the current grid is; the catalog has no repeated
glyph.  The same holds through the text, for any host `JSON.stringify` / `JSON.parse`
pair that reads back the document it wrote. -/
theorem export_import_roundtrip (map cur : Grid) (hshape : WellShaped map)
    (hvalid : ValidTiles map) :
    importParsed (some (glyphMatrix map)) cur = (map, .imported) ∧
      allEmojis.Nodup ∧
      ∀ (jsonStringify : JsonValue → String) (jsonParse : String → Option JsonValue),
        jsonParse (jsonStringify (glyphMatrix map)) = some (glyphMatrix map) →
        onload jsonParse (exportMap jsonStringify map) cur = (map, .imported) := by
  have hdoc : glyphMatrix map =
      .array ((map.map (fun row => row.map glyphAt)).map .array) := by
    simp [glyphMatrix, List.map_map, Function.comp_def]
  have hback : (map.map (fun row => row.map glyphAt)).map (fun r => r.map convertCell) = map := by
    rw [List.map_map]
    conv_rhs => rw [← List.map_id map]
    apply List.map_congr_left
    intro row hrow
    simp only [Function.comp_apply, List.map_map, id]
    conv_rhs => rw [← List.map_id row]
    apply List.map_congr_left
    intro idx hidx
    simpa using convertCell_glyphAt idx (hvalid row hrow idx hidx)
  have hmain : importParsed (some (glyphMatrix map)) cur = (map, .imported) := by
    rw [hdoc, importParsed_matrix _ cur (by simpa using hshape.1), hback]
    intro r hr
    obtain ⟨row, hrow, rfl⟩ := List.mem_map.mp hr
    simpa using hshape.2 row hrow
  refine ⟨hmain, allEmojis_nodup, ?_⟩
  intro jsonStringify jsonParse hhost
  unfold onload exportMap
  rw [hhost, hmain]

/-- Witness for C2: a grid holding every TileId, imported over the initial grid. -/
theorem export_import_roundtrip_witness :
    importParsed (some (glyphMatrix sampleMap)) initialMap = (sampleMap, .imported) ∧
      allEmojis.Nodup ∧
      ∀ (jsonStringify : JsonValue → String) (jsonParse : String → Option JsonValue),
        jsonParse (jsonStringify (glyphMatrix sampleMap)) = some (glyphMatrix sampleMap) →
        onload jsonParse (exportMap jsonStringify sampleMap) initialMap =
          (sampleMap, .imported) :=
  export_import_roundtrip sampleMap initialMap (by decide) (by decide)

/-- C4: the import replaces the grid exactly when the text parses to an array of 30
arrays of 10 entries each; in every other case (no parse, not an array, a wrong number of
rows, a row that is not an array of 10 entries) the import is rejected with an error alert
and the current grid is kept. -/
theorem import_atomic (jsonParse : String → Option JsonValue) (text : String) (cur : Grid) :
    ((∃ matrix : List (List JsonValue), jsonParse text = some (.array (matrix.map .array)) ∧
        matrix.length = rows ∧ ∀ r ∈ matrix, r.length = cols) ↔
      (onload jsonParse text cur).2 = .imported) ∧
    ((onload jsonParse text cur).2 ≠ .imported → (onload jsonParse text cur).1 = cur) ∧
    (jsonParse text = none → onload jsonParse text cur = (cur, .parseError)) ∧
    (∀ v, jsonParse text = some v → (∀ items, v ≠ .array items) →
      onload jsonParse text cur = (cur, .badShape)) ∧
    (∀ items, jsonParse text = some (.array items) → items.length ≠ rows →
      onload jsonParse text cur = (cur, .badShape)) ∧
    (∀ items row, jsonParse text = some (.array items) → row ∈ items →
      (∀ entries, row = .array entries → entries.length ≠ cols) →
      onload jsonParse text cur = (cur, .badShape)) := by
  unfold onload
  refine ⟨⟨?_, ?_⟩, ?_, ?_, ?_, ?_, ?_⟩
  · rintro ⟨m, hm, hlen, hcols⟩
    rw [hm, importParsed_matrix m cur hlen hcols]
  · intro h
    rcases importParsed_cases (jsonParse text) cur with h1 | h1 | ⟨m, hm, hlen, hcols, _⟩
    · rw [h1] at h; cases h
    · rw [h1] at h; cases h
    · exact ⟨m, hm, hlen, hcols⟩
  · intro h
    rcases importParsed_cases (jsonParse text) cur with h1 | h1 | ⟨m, _, _, _, h1⟩
    · rw [h1]
    · rw [h1]
    · rw [h1] at h; exact absurd rfl h
  · intro h
    rw [h]; rfl
  · intro v hv hnot
    rw [hv]
    cases v <;> first | rfl | exact absurd rfl (hnot _)
  · intro items hv hlen
    rw [hv]
    simp [importParsed, shapeRejected, hlen]
  · intro items row hv hrow hbad
    rw [hv]
    have hr : rowOk row = false := by
      cases hrk : rowOk row
      · rfl
      · obtain ⟨entries, he, hl⟩ := (rowOk_iff row).mp hrk
        exact absurd hl (hbad entries he)
    have : shapeRejected (.array items) = true := by
      simp only [shapeRejected, Bool.or_eq_true, Bool.not_eq_true', List.all_eq_false]
      right
      exact ⟨row, hrow, by simp [hr]⟩
    simp [importParsed, this]

/-- C5: a correctly shaped 30x10 input matrix is always imported; the cell `(i, j)` of
the new grid is `convertCell` of the input entry at `(i, j)` alone, which is the TileId
`n` when the entry is the catalog glyph `allEmojis[n]`, and 0 when the entry is not in the
catalog. -/
theorem import_lenient (jsonParse : String → Option JsonValue) (text : String)
    (matrix : List (List JsonValue)) (cur : Grid)
    (hparse : jsonParse text = some (.array (matrix.map .array)))
    (hrows : matrix.length = rows) (hcols : ∀ r ∈ matrix, r.length = cols) :
    ∃ newMap : Grid, onload jsonParse text cur = (newMap, .imported) ∧ WellShaped newMap ∧
      ∀ (i j : Nat) (row : List JsonValue) (entry : JsonValue),
        matrix[i]? = some row → row[j]? = some entry →
        getCell newMap i j = some (convertCell entry) ∧
        (∀ n glyph, allEmojis[n]? = some glyph → entry = .string glyph →
          convertCell entry = n) ∧
        ((∀ glyph ∈ allEmojis, entry ≠ .string glyph) → convertCell entry = 0) := by
  refine ⟨_, ?_, (converted_wellShaped matrix hrows hcols).1, ?_⟩
  · unfold onload
    rw [hparse, importParsed_matrix matrix cur hrows hcols]
  · intro i j row entry hi hj
    refine ⟨?_, ?_, convertCell_unknown entry⟩
    · simp [getCell, List.getElem?_map, hi, hj]
    · rintro n glyph hn rfl
      exact convertCell_glyph n glyph hn

/-- Witness for C5: a matrix whose first column is a glyph outside the catalog. -/
theorem import_lenient_witness :
    ∃ newMap : Grid,
      onload (fun _ => some (.array (unknownGlyphMatrix.map .array))) "" initialMap =
        (newMap, .imported) ∧ WellShaped newMap ∧
      ∀ (i j : Nat) (row : List JsonValue) (entry : JsonValue),
        unknownGlyphMatrix[i]? = some row → row[j]? = some entry →
        getCell newMap i j = some (convertCell entry) ∧
        (∀ n glyph, allEmojis[n]? = some glyph → entry = .string glyph →
          convertCell entry = n) ∧
        ((∀ glyph ∈ allEmojis, entry ≠ .string glyph) → convertCell entry = 0) :=
  import_lenient (fun _ => some (.array (unknownGlyphMatrix.map .array))) "" unknownGlyphMatrix
    initialMap rfl (by decide) (by decide)

/-! ## The paint controller -/

theorem paintCell_inBounds (t i j : Nat) (map : Grid) (hmap : WellShaped map)
    (hi : i < rows) (hj : j < cols) :
    ∃ next : Grid, paintCell t i j map = some next ∧ WellShaped next ∧
      (∀ i2 j2, getCell next i2 j2 = if (i2, j2) = (i, j) then some t else getCell map i2 j2) ∧
      (ValidTiles map → t < allEmojis.length → ValidTiles next) := by
  obtain ⟨row, hrow, hlen⟩ := wellShaped_row hmap hi
  have hj2 : j < row.length := by rw [hlen]; exact hj
  refine ⟨_, paintCell_eq_some hrow hj2, wellShaped_set hmap i _ (by simpa using hlen), ?_, ?_⟩
  · intro i2 j2
    exact getCell_set map row t i j i2 j2 hrow hj2
  · intro hv ht
    exact validTiles_set hv i j t row hrow ht

theorem step_pointerOver_idle (jsonParse : String → Option JsonValue) (s : EditorState)
    (h : s.drawing = false) (i j : Nat) : step jsonParse s (.pointerOver i j) = some s := by
  simp [step, handlePointerOver, h]

theorem run_append (jsonParse : String → Option JsonValue) (s : EditorState)
    (es1 es2 : List Event) :
    run jsonParse s (es1 ++ es2) =
      match run jsonParse s es1 with
      | none => none
      | some s1 => run jsonParse s1 es2 := by
  induction es1 generalizing s with
  | nil => rfl
  | cons e es ih =>
    simp only [List.cons_append, run]
    cases step jsonParse s e with
    | none => rfl
    | some s1 => exact ih s1

theorem run_idle (jsonParse : String → Option JsonValue) (s : EditorState)
    (es : List Event) (hs : s.drawing = false)
    (hes : ∀ e ∈ es, e.Deliverable ∧ e.isPrimaryDown = false) :
    ∃ s2, run jsonParse s es = some s2 ∧ s2.drawing = false := by
  induction es generalizing s with
  | nil => exact ⟨s, rfl, hs⟩
  | cons e es ih =>
    obtain ⟨hd, hp⟩ := hes e (List.mem_cons_self _ _)
    have hrest : ∀ e2 ∈ es, e2.Deliverable ∧ e2.isPrimaryDown = false :=
      fun e2 h2 => hes e2 (List.mem_cons_of_mem _ h2)
    have hstep : ∃ s1, step jsonParse s e = some s1 ∧ s1.drawing = false := by
      cases e with
      | pointerDown button i j =>
        have hb : ¬ button = 0 := by simpa [Event.isPrimaryDown] using hp
        exact ⟨s, by simp [step, handlePointerDown, hb], hs⟩
      | pointerOver i j => exact ⟨s, step_pointerOver_idle jsonParse s hs i j, hs⟩
      | pointerUp => exact ⟨_, rfl, rfl⟩
      | pointerLeave => exact ⟨s, rfl, hs⟩
      | clickButton gi idx =>
        obtain ⟨group, hg, hidx⟩ := hd
        exact ⟨{ s with selectedEmoji := globalIndex gi idx },
          by simp [step, clickButton, hg, hidx], hs⟩
      | fileLoaded text => exact ⟨_, rfl, hs⟩
    obtain ⟨s1, h1, hs1⟩ := hstep
    obtain ⟨s2, h2, hs2⟩ := ih s1 hs1 hrest
    exact ⟨s2, by simp [run, h1, h2], hs2⟩

theorem run_pointerOvers (jsonParse : String → Option JsonValue) (s : EditorState)
    (cs : List (Nat × Nat)) (hs : s.drawing = true) (hmap : WellShaped s.map)
    (hcs : ∀ c ∈ cs, c.1 < rows ∧ c.2 < cols) :
    ∃ s2, run jsonParse s (cs.map (fun c => Event.pointerOver c.1 c.2)) = some s2 ∧
      s2.drawing = true ∧ s2.selectedEmoji = s.selectedEmoji ∧ WellShaped s2.map ∧
      ∀ i j, getCell s2.map i j =
        if (i, j) ∈ cs then some s.selectedEmoji else getCell s.map i j := by
  induction cs generalizing s with
  | nil => exact ⟨s, rfl, hs, rfl, hmap, by simp⟩
  | cons c cs ih =>
    obtain ⟨hc1, hc2⟩ := hcs c (List.mem_cons_self _ _)
    obtain ⟨next, hnext, hshape, hcells, _⟩ :=
      paintCell_inBounds s.selectedEmoji c.1 c.2 s.map hmap hc1 hc2
    have hstep : step jsonParse s (Event.pointerOver c.1 c.2) = some { s with map := next } := by
      simp [step, handlePointerOver, hs, hnext]
    obtain ⟨s2, h2, hd2, hsel2, hshape2, hcells2⟩ :=
      ih { s with map := next } hs hshape (fun c2 h2 => hcs c2 (List.mem_cons_of_mem _ h2))
    refine ⟨s2, by simp only [List.map_cons, run, hstep, h2], hd2, hsel2, hshape2, ?_⟩
    intro i j
    rw [hcells2 i j]
    simp only [hcells i j, List.mem_cons]
    by_cases h1 : (i, j) ∈ cs
    · simp [h1]
    · by_cases h2 : (i, j) = c
      · simp [h2]
      · have h3 : ¬ (i, j) = (c.1, c.2) := h2
        simp [h1, h2, h3]

/-- C6: from an idle state with TileId `t` selected, the events pointer-down (primary
button) on `c0`, pointer-over on each of `cs`, pointer-up end idle with `t` at `c0` and at
every cell of `cs` and the original value everywhere else; after any later events that
contain no primary pointer-down, a pointer-over on any cell changes nothing. -/
theorem drag_paints (jsonParse : String → Option JsonValue) (map : Grid) (t : Nat)
    (c0 : Nat × Nat) (cs : List (Nat × Nat)) (hmap : WellShaped map)
    (h0 : c0.1 < rows ∧ c0.2 < cols) (hcs : ∀ c ∈ cs, c.1 < rows ∧ c.2 < cols) :
    ∃ s : EditorState,
      run jsonParse { map := map, selectedEmoji := t, drawing := false } (dragEvents c0 cs) =
        some s ∧
      s.drawing = false ∧ s.selectedEmoji = t ∧ WellShaped s.map ∧
      (∀ i j, getCell s.map i j =
        if (i, j) = c0 ∨ (i, j) ∈ cs then some t else getCell map i j) ∧
      (∀ i j, step jsonParse s (.pointerOver i j) = some s) ∧
      (∀ later, (∀ e ∈ later, e.Deliverable ∧ e.isPrimaryDown = false) →
        ∃ s2, run jsonParse s later = some s2 ∧ s2.drawing = false ∧
          ∀ i j, step jsonParse s2 (.pointerOver i j) = some s2) := by
  obtain ⟨next, hnext, hshape, hcells, _⟩ := paintCell_inBounds t c0.1 c0.2 map hmap h0.1 h0.2
  obtain ⟨s2, h2, hd2, hsel2, hshape2, hcells2⟩ :=
    run_pointerOvers jsonParse { map := next, selectedEmoji := t, drawing := true } cs rfl
      hshape hcs
  refine ⟨handlePointerUp s2, ?_, rfl, hsel2, hshape2, ?_, ?_, ?_⟩
  · have hdown : step jsonParse { map := map, selectedEmoji := t, drawing := false }
        (Event.pointerDown 0 c0.1 c0.2) =
        some { map := next, selectedEmoji := t, drawing := true } := by
      simp [step, handlePointerDown, hnext]
    simp only [dragEvents, run, hdown]
    rw [run_append, h2]
    rfl
  · intro i j
    show getCell s2.map i j = _
    rw [hcells2 i j]
    simp only [hcells i j]
    by_cases h1 : (i, j) ∈ cs
    · simp [h1]
    · by_cases h3 : (i, j) = c0
      · have h4 : (i, j) = (c0.1, c0.2) := h3
        simp [h3, h4]
      · have h4 : ¬ (i, j) = (c0.1, c0.2) := h3
        simp [h1, h3, h4]
  · intro i j
    exact step_pointerOver_idle jsonParse _ rfl i j
  · intro later hlater
    obtain ⟨s3, h3, hd3⟩ := run_idle jsonParse (handlePointerUp s2) later rfl hlater
    exact ⟨s3, h3, hd3, fun i j => step_pointerOver_idle jsonParse s3 hd3 i j⟩

/-- Witness for C6: the drag `(2,3)`, `(2,4)`, `(2,5)` with TileId 5 on the initial grid. -/
theorem drag_paints_witness :
    ∃ s : EditorState,
      run (fun _ => none) { map := initialMap, selectedEmoji := 5, drawing := false }
        (dragEvents (2, 3) [(2, 4), (2, 5)]) = some s ∧
      s.drawing = false ∧ s.selectedEmoji = 5 ∧ WellShaped s.map ∧
      (∀ i j, getCell s.map i j =
        if (i, j) = (2, 3) ∨ (i, j) ∈ [(2, 4), (2, 5)] then some 5 else getCell initialMap i j) ∧
      (∀ i j, step (fun _ => none) s (.pointerOver i j) = some s) ∧
      (∀ later, (∀ e ∈ later, e.Deliverable ∧ e.isPrimaryDown = false) →
        ∃ s2, run (fun _ => none) s later = some s2 ∧ s2.drawing = false ∧
          ∀ i j, step (fun _ => none) s2 (.pointerOver i j) = some s2) :=
  drag_paints (fun _ => none) initialMap 5 (2, 3) [(2, 4), (2, 5)] (by decide) (by decide)
    (by decide)

/-- C7, as the claim states it, fails: after a primary pointer-down on `(2, 3)` the pointer
leaves the canvas; the drawing flag is still set, and the next pointer-over on `(2, 6)`
paints TileId 1 over the 0 that was there. -/
theorem pointerLeave_keeps_drawing :
    ∃ s1 s2 : EditorState,
      run (fun _ => none) initialState [.pointerDown 0 2 3, .pointerLeave] = some s1 ∧
      s1.drawing = true ∧ getCell s1.map 2 6 = some 0 ∧
      step (fun _ => none) s1 (.pointerOver 2 6) = some s2 ∧ getCell s2.map 2 6 = some 1 :=
  ⟨_, _, rfl, rfl, rfl, rfl, rfl⟩

/-- C7, amended: a pointer-up resets the drawing flag and leaves the grid and the selection
as they are; after it, through any later events that contain no primary pointer-down, a
pointer-over on any cell changes nothing.  The pointer leaving the canvas runs no handler:
the state, drawing flag included, stays as it is. -/
theorem pointerUp_resets (jsonParse : String → Option JsonValue) (s : EditorState) :
    step jsonParse s .pointerUp =
      some { map := s.map, selectedEmoji := s.selectedEmoji, drawing := false } ∧
    (∀ later, (∀ e ∈ later, e.Deliverable ∧ e.isPrimaryDown = false) →
      ∃ s2, run jsonParse { map := s.map, selectedEmoji := s.selectedEmoji, drawing := false }
          later = some s2 ∧ s2.drawing = false ∧
        ∀ i j, step jsonParse s2 (.pointerOver i j) = some s2) ∧
    step jsonParse s .pointerLeave = some s := by
  refine ⟨rfl, ?_, rfl⟩
  intro later hlater
  obtain ⟨s2, h2, hd2⟩ := run_idle jsonParse
    { map := s.map, selectedEmoji := s.selectedEmoji, drawing := false } later rfl hlater
  exact ⟨s2, h2, hd2, fun i j => step_pointerOver_idle jsonParse s2 hd2 i j⟩

/-! ## Reachable states -/

theorem globalIndex_lt {gi idx : Nat} (h : ButtonExists gi idx) :
    globalIndex gi idx < allEmojis.length := by
  obtain ⟨h1, h2⟩ := buttonExists_bounds h
  rw [buttonExists_iff] at h
  interval_cases gi <;> interval_cases idx <;> first | decide | exact absurd h (by decide)

theorem step_preserves (jsonParse : String → Option JsonValue) (s : EditorState) (e : Event)
    (he : e.Deliverable) (hshape : WellShaped s.map) (hvalid : ValidTiles s.map)
    (hsel : s.selectedEmoji < allEmojis.length) :
    ∃ s1, step jsonParse s e = some s1 ∧ WellShaped s1.map ∧ ValidTiles s1.map ∧
      s1.selectedEmoji < allEmojis.length := by
  cases e with
  | pointerDown button i j =>
    by_cases hb : button = 0
    · obtain ⟨next, hnext, hs1, _, hv1⟩ :=
        paintCell_inBounds s.selectedEmoji i j s.map hshape he.1 he.2
      exact ⟨{ s with drawing := true, map := next },
        by simp [step, handlePointerDown, hb, hnext], hs1, hv1 hvalid hsel, hsel⟩
    · exact ⟨s, by simp [step, handlePointerDown, hb], hshape, hvalid, hsel⟩
  | pointerOver i j =>
    by_cases hd : s.drawing = true
    · obtain ⟨next, hnext, hs1, _, hv1⟩ :=
        paintCell_inBounds s.selectedEmoji i j s.map hshape he.1 he.2
      exact ⟨{ s with map := next },
        by simp [step, handlePointerOver, hd, hnext], hs1, hv1 hvalid hsel, hsel⟩
    · exact ⟨s, by simp [step, handlePointerOver, hd], hshape, hvalid, hsel⟩
  | pointerUp => exact ⟨handlePointerUp s, rfl, hshape, hvalid, hsel⟩
  | pointerLeave => exact ⟨s, rfl, hshape, hvalid, hsel⟩
  | clickButton gi idx =>
    have hlt := globalIndex_lt he
    obtain ⟨group, hg, hidx⟩ := he
    exact ⟨{ s with selectedEmoji := globalIndex gi idx },
      by simp [step, clickButton, hg, hidx], hshape, hvalid, hlt⟩
  | fileLoaded text =>
    refine ⟨{ s with map := (onload jsonParse text s.map).1 }, rfl, ?_, ?_, hsel⟩
    · show WellShaped (importParsed (jsonParse text) s.map).1
      rcases importParsed_cases (jsonParse text) s.map with h | h | ⟨m, _, hl, hc, h⟩
      · rw [h]; exact hshape
      · rw [h]; exact hshape
      · rw [h]; exact (converted_wellShaped m hl hc).1
    · show ValidTiles (importParsed (jsonParse text) s.map).1
      rcases importParsed_cases (jsonParse text) s.map with h | h | ⟨m, _, hl, hc, h⟩
      · rw [h]; exact hvalid
      · rw [h]; exact hvalid
      · rw [h]; exact (converted_wellShaped m hl hc).2

theorem run_preserves (jsonParse : String → Option JsonValue) (s : EditorState)
    (events : List Event) (hev : ∀ e ∈ events, e.Deliverable) (hshape : WellShaped s.map)
    (hvalid : ValidTiles s.map) (hsel : s.selectedEmoji < allEmojis.length) :
    ∃ s2, run jsonParse s events = some s2 ∧ WellShaped s2.map ∧ ValidTiles s2.map ∧
      s2.selectedEmoji < allEmojis.length := by
  induction events generalizing s with
  | nil => exact ⟨s, rfl, hshape, hvalid, hsel⟩
  | cons e es ih =>
    obtain ⟨s1, h1, a1, b1, c1⟩ :=
      step_preserves jsonParse s e (hev e (List.mem_cons_self _ _)) hshape hvalid hsel
    obtain ⟨s2, h2, a2, b2, c2⟩ :=
      ih s1 (fun e2 h => hev e2 (List.mem_cons_of_mem _ h)) a1 b1 c1
    exact ⟨s2, by simp [run, h1, h2], a2, b2, c2⟩

/-- C8: from the initial state, every sequence of deliverable events (button clicks,
pointer events on in-bounds cells, loaded files of any text) is handled without exception
and leaves a grid of exactly 30 rows of exactly 10 cells, each holding a valid TileId; the
selected TileId stays valid as well. -/
theorem reachable_grid_valid (jsonParse : String → Option JsonValue) (events : List Event)
    (hev : ∀ e ∈ events, e.Deliverable) :
    ∃ s, run jsonParse initialState events = some s ∧
      s.map.length = 30 ∧ (∀ row ∈ s.map, row.length = 10) ∧
      (∀ row ∈ s.map, ∀ idx ∈ row, idx < allEmojis.length) ∧
      s.selectedEmoji < allEmojis.length := by
  obtain ⟨s, h, a, b, c⟩ := run_preserves jsonParse initialState events hev (by decide)
    (by decide) (by decide)
  exact ⟨s, h, a.1, a.2, b, c⟩

/-- Witness for C8: a click, a drag, a rejected import and a non-primary pointer-down. -/
theorem reachable_grid_valid_witness :
    ∃ s, run (fun _ => none) initialState
        [.clickButton 2 3, .pointerDown 0 2 3, .pointerOver 2 4, .pointerUp,
          .fileLoaded "\x7bnot json", .pointerDown 2 29 9, .pointerLeave] = some s ∧
      s.map.length = 30 ∧ (∀ row ∈ s.map, row.length = 10) ∧
      (∀ row ∈ s.map, ∀ idx ∈ row, idx < allEmojis.length) ∧
      s.selectedEmoji < allEmojis.length :=
  reachable_grid_valid (fun _ => none) _ (by
    intro e he
    simp only [List.mem_cons, List.mem_singleton, List.not_mem_nil, or_false] at he
    rcases he with rfl | rfl | rfl | rfl | rfl | rfl | rfl
    · exact ⟨enemyEmojis, rfl, by decide⟩
    · exact ⟨by decide, by decide⟩
    · exact ⟨by decide, by decide⟩
    · trivial
    · trivial
    · exact ⟨by decide, by decide⟩
    · trivial)

/-! ## Render grouping: the `groups` object -/

theorem pushCell_cons_eq (k : Nat) (cells : List (Nat × Nat)) (rest : Groups)
    (c : Nat × Nat) :
    pushCell ((k, cells) :: rest) k c = (k, cells ++ [c]) :: pushCell rest k c := by
  simp [pushCell]

theorem pushCell_cons_ne (k idx : Nat) (cells : List (Nat × Nat)) (rest : Groups)
    (c : Nat × Nat) (h : ¬ k = idx) :
    pushCell ((k, cells) :: rest) idx c = (k, cells) :: pushCell rest idx c := by
  simp [pushCell, h]

theorem getGroup_pushCell (groups : Groups) (idx t : Nat) (c : Nat × Nat) :
    getGroup (pushCell groups idx c) t =
      if t = idx then (getGroup groups idx).map (fun cells => cells ++ [c])
      else getGroup groups t := by
  induction groups with
  | nil => simp [pushCell, getGroup]
  | cons kv rest ih =>
    obtain ⟨k, cells⟩ := kv
    by_cases hk : k = idx
    · subst hk
      rw [pushCell_cons_eq]
      by_cases ht : t = k
      · subst ht; simp [getGroup]
      · have ht2 : ¬ k = t := fun h => ht h.symm
        simp only [getGroup, ht, ht2, if_false] at ih ⊢
        exact ih
    · rw [pushCell_cons_ne k idx cells rest c hk]
      by_cases ht : t = idx
      · subst ht
        simp only [getGroup, hk, if_true, if_false] at ih ⊢
        exact ih
      · simp only [ht, if_false] at ih ⊢
        by_cases hkt : k = t
        · simp [getGroup, hkt]
        · simp only [getGroup, hkt, if_false]
          exact ih

theorem getGroup_append_empty (groups : Groups) (idx t : Nat)
    (h : getGroup groups idx = none) :
    getGroup (groups ++ [(idx, [])]) t = if t = idx then some [] else getGroup groups t := by
  induction groups with
  | nil =>
    by_cases ht : t = idx
    · subst ht; simp [getGroup]
    · have ht2 : ¬ idx = t := fun h => ht h.symm
      simp [getGroup, ht, ht2]
  | cons kv rest ih =>
    obtain ⟨k, cells⟩ := kv
    have hk : ¬ k = idx := by
      intro hk
      simp [getGroup, hk] at h
    have hrest : getGroup rest idx = none := by
      simpa [getGroup, hk] using h
    simp only [List.cons_append, getGroup]
    by_cases hkt : k = t
    · subst hkt
      simp [hk]
    · simp only [hkt, if_false]
      exact ih hrest

theorem getGroup_addCell (groups : Groups) (idx t : Nat) (c : Nat × Nat) :
    getGroup (pushCell (ensureGroup groups idx) idx c) t =
      if t = idx then some ((getGroup groups idx).getD [] ++ [c]) else getGroup groups t := by
  rw [getGroup_pushCell]
  unfold ensureGroup
  cases h : getGroup groups idx with
  | none =>
    simp only [getGroup_append_empty groups idx _ h]
    by_cases ht : t = idx
    · simp [ht]
    · simp [ht]
  | some cells =>
    by_cases ht : t = idx
    · simp [ht, h]
    · simp [ht]

theorem getGroup_eq_none_iff (groups : Groups) (t : Nat) :
    getGroup groups t = none ↔ t ∉ groupKeys groups := by
  induction groups with
  | nil => simp [getGroup, groupKeys]
  | cons kv rest ih =>
    obtain ⟨k, cells⟩ := kv
    by_cases hk : k = t
    · simp [getGroup, groupKeys, hk]
    · have hk2 : ¬ t = k := fun h => hk h.symm
      simp only [getGroup, hk, if_false, ih]
      simp [groupKeys, hk2]

theorem getGroup_mem {groups : Groups} {t : Nat} {cells : List (Nat × Nat)}
    (h : getGroup groups t = some cells) : (t, cells) ∈ groups := by
  induction groups with
  | nil => simp [getGroup] at h
  | cons kv rest ih =>
    obtain ⟨k, cs⟩ := kv
    by_cases hk : k = t
    · simp [getGroup, hk] at h
      simp [hk, h]
    · simp only [getGroup, hk, if_false] at h
      exact List.mem_cons_of_mem _ (ih h)

theorem getGroup_of_mem {groups : Groups} {t : Nat} {cells : List (Nat × Nat)}
    (hnodup : (groupKeys groups).Nodup) (h : (t, cells) ∈ groups) :
    getGroup groups t = some cells := by
  induction groups with
  | nil => simp at h
  | cons kv rest ih =>
    obtain ⟨k, cs⟩ := kv
    simp only [groupKeys, List.map_cons, List.nodup_cons] at hnodup
    rcases List.mem_cons.mp h with h | h
    · cases h
      simp [getGroup]
    · have hk : ¬ k = t := by
        intro hk
        subst hk
        exact hnodup.1 (List.mem_map.mpr ⟨(k, cells), h, rfl⟩)
      simp only [getGroup, hk, if_false]
      exact ih hnodup.2 h

theorem groupKeys_pushCell (groups : Groups) (idx : Nat) (c : Nat × Nat) :
    groupKeys (pushCell groups idx c) = groupKeys groups := by
  unfold groupKeys pushCell
  rw [List.map_map]
  apply List.map_congr_left
  intro kv _
  by_cases h : kv.1 = idx <;> simp [h]

theorem groupKeys_addCell_nodup (groups : Groups) (idx : Nat) (c : Nat × Nat)
    (h : (groupKeys groups).Nodup) :
    (groupKeys (pushCell (ensureGroup groups idx) idx c)).Nodup := by
  rw [groupKeys_pushCell]
  unfold ensureGroup
  cases hg : getGroup groups idx with
  | none =>
    have hnot := (getGroup_eq_none_iff groups idx).mp hg
    simp only [groupKeys, List.map_append, List.map_cons, List.map_nil]
    rw [List.nodup_append]
    refine ⟨h, by simp, ?_⟩
    intro a ha hb
    simp only [List.mem_singleton] at hb
    subst hb
    exact hnot ha
  | some cells => exact h

/-! ## Render grouping: the scan -/

theorem getGroup_foldl (v : Nat × Nat → Nat) (cs : List (Nat × Nat)) (groups : Groups)
    (t : Nat) :
    getGroup (cs.foldl (fun g c => pushCell (ensureGroup g (v c)) (v c) c) groups) t =
      if cs.filter (fun c => v c == t) = [] then getGroup groups t
      else some ((getGroup groups t).getD [] ++ cs.filter (fun c => v c == t)) := by
  induction cs generalizing groups with
  | nil => simp
  | cons c cs ih =>
    simp only [List.foldl_cons]
    rw [ih, getGroup_addCell]
    by_cases hv : v c = t
    · subst hv
      simp only [List.filter_cons, beq_self_eq_true, if_true]
      by_cases hrest : cs.filter (fun c2 => v c2 == v c) = []
      · simp [hrest]
      · simp [hrest]
    · have hv2 : ¬ t = v c := fun h => hv h.symm
      have hb : (v c == t) = false := by simpa using hv
      simp only [List.filter_cons, hb, hv2, if_false]
      rfl

theorem groupKeys_foldl_nodup (v : Nat × Nat → Nat) (cs : List (Nat × Nat)) (groups : Groups)
    (h : (groupKeys groups).Nodup) :
    (groupKeys (cs.foldl (fun g c => pushCell (ensureGroup g (v c)) (v c) c) groups)).Nodup := by
  induction cs generalizing groups with
  | nil => exact h
  | cons c cs ih =>
    simp only [List.foldl_cons]
    exact ih _ (groupKeys_addCell_nodup groups (v c) c h)

theorem foldlM_eq_some_foldl {α β : Type} (f : β → α → Option β) (f2 : β → α → β)
    (l : List α) (init : β) (h : ∀ x ∈ l, ∀ b, f b x = some (f2 b x)) :
    l.foldlM f init = some (l.foldl f2 init) := by
  induction l generalizing init with
  | nil => rfl
  | cons x xs ih =>
    simp only [List.foldlM_cons, List.foldl_cons, h x (List.mem_cons_self _ _) init]
    exact ih _ (fun y hy b => h y (List.mem_cons_of_mem _ hy) b)

theorem foldl_flatMap_eq {α β γ : Type} (f : γ → β → γ) (h : α → List β) (l : List α)
    (init : γ) :
    (l.flatMap h).foldl f init = l.foldl (fun g x => (h x).foldl f g) init := by
  induction l generalizing init with
  | nil => rfl
  | cons x xs ih => simp only [List.flatMap_cons, List.foldl_append, List.foldl_cons, ih]

theorem mem_scanOrder (c : Nat × Nat) : c ∈ scanOrder ↔ c.1 < rows ∧ c.2 < cols := by
  obtain ⟨i, j⟩ := c
  simp only [scanOrder, List.mem_flatMap, List.mem_range, List.mem_map, Prod.mk.injEq]
  constructor
  · rintro ⟨a, ha, b, hb, rfl, rfl⟩
    exact ⟨ha, hb⟩
  · rintro ⟨hi, hj⟩
    exact ⟨i, hi, j, hj, rfl, rfl⟩

theorem scanOrder_nodup : scanOrder.Nodup := by
  unfold scanOrder
  rw [List.nodup_flatMap]
  refine ⟨?_, ?_⟩
  · intro i _
    exact (List.nodup_range cols).map (fun a b h => by simpa using h)
  · refine (List.nodup_range rows).pairwise_of_forall_ne ?_
    intro a _ b _ hab
    intro c hca hcb
    simp only [List.mem_map] at hca hcb
    obtain ⟨_, _, rfl⟩ := hca
    obtain ⟨_, _, h⟩ := hcb
    simp only [Prod.mk.injEq] at h
    exact hab h.1.symm

theorem getCell_inBounds {map : Grid} (hmap : WellShaped map) {i j : Nat} (hi : i < rows)
    (hj : j < cols) : ∃ idx, getCell map i j = some idx ∧ idx ∈ map.flatten := by
  obtain ⟨row, hrow, hlen⟩ := wellShaped_row hmap hi
  have hj2 : j < row.length := by rw [hlen]; exact hj
  refine ⟨row[j], by simp [getCell, hrow, List.getElem?_eq_getElem hj2], ?_⟩
  exact List.mem_flatten.mpr ⟨row, List.getElem?_mem hrow, List.getElem_mem hj2⟩

theorem mem_flatten_getCell {map : Grid} (hmap : WellShaped map) {t : Nat}
    (ht : t ∈ map.flatten) : ∃ i j, i < rows ∧ j < cols ∧ getCell map i j = some t := by
  obtain ⟨row, hrow, htrow⟩ := List.mem_flatten.mp ht
  obtain ⟨i, hi, hrowi⟩ := List.getElem_of_mem hrow
  obtain ⟨j, hj, hrowj⟩ := List.getElem_of_mem htrow
  refine ⟨i, j, by rw [← hmap.1]; exact hi, by rw [← hmap.2 row hrow]; exact hj, ?_⟩
  have h1 : map[i]? = some row := by rw [List.getElem?_eq_getElem hi, hrowi]
  have h2 : row[j]? = some t := by rw [List.getElem?_eq_getElem hj, hrowj]
  simp [getCell, h1, h2]

theorem grouped_eq_foldl (map : Grid) (hmap : WellShaped map) :
    grouped map = some (scanOrder.foldl (fun g c =>
      pushCell (ensureGroup g ((getCell map c.1 c.2).getD 0)) ((getCell map c.1 c.2).getD 0) c)
      []) := by
  unfold grouped scanOrder
  rw [foldl_flatMap_eq]
  apply foldlM_eq_some_foldl
  intro i hi groups
  unfold groupRow
  rw [List.foldl_map]
  apply foldlM_eq_some_foldl
  intro j hj g
  obtain ⟨idx, hidx, _⟩ := getCell_inBounds hmap (List.mem_range.mp hi) (List.mem_range.mp hj)
  simp [groupCell, hidx]

theorem cellsHolding_eq (map : Grid) (hmap : WellShaped map) (t : Nat) :
    scanOrder.filter (fun c => (getCell map c.1 c.2).getD 0 == t) = cellsHolding map t := by
  unfold cellsHolding
  apply List.filter_congr
  intro c hc
  obtain ⟨h1, h2⟩ := (mem_scanOrder c).mp hc
  obtain ⟨idx, hidx, _⟩ := getCell_inBounds hmap h1 h2
  simp [hidx]

theorem mem_cellsHolding (map : Grid) (t : Nat) (c : Nat × Nat) :
    c ∈ cellsHolding map t ↔ (c.1 < rows ∧ c.2 < cols) ∧ getCell map c.1 c.2 = some t := by
  simp [cellsHolding, List.mem_filter, mem_scanOrder]

/-- The result of `grouped` on a 30x10 grid: the keys are distinct, and the entry of a
TileId is the list of the cells holding it, absent when there is none. -/
theorem grouped_spec (map : Grid) (hmap : WellShaped map) :
    ∃ groups, grouped map = some groups ∧ (groupKeys groups).Nodup ∧
      ∀ t, getGroup groups t =
        if cellsHolding map t = [] then none else some (cellsHolding map t) := by
  refine ⟨_, grouped_eq_foldl map hmap, groupKeys_foldl_nodup _ _ [] (by simp [groupKeys]), ?_⟩
  intro t
  rw [getGroup_foldl, cellsHolding_eq map hmap t]
  simp [getGroup]

theorem count_eq_one_of_nodup {α : Type} [BEq α] [LawfulBEq α] (a : α) (l : List α)
    (hn : l.Nodup) (hm : a ∈ l) : l.count a = 1 := by
  induction l with
  | nil => exact absurd hm (List.not_mem_nil _)
  | cons x xs ih =>
    rw [List.nodup_cons] at hn
    by_cases hx : a = x
    · subst hx
      rw [List.count_cons_self, List.count_eq_zero_of_not_mem hn.1]
    · rw [List.count_cons_of_ne hx]
      exact ih hn.2 ((List.mem_cons.mp hm).resolve_left hx)

theorem scanPrefix_length (n : Nat) :
    ((List.range n).flatMap (fun i => (List.range cols).map (fun j => (i, j)))).length =
      n * cols := by
  induction n with
  | zero => simp
  | succ n ih =>
    rw [List.range_succ, List.flatMap_append, List.length_append, ih]
    simp [Nat.succ_mul]

theorem scanPrefix_getElem (n i j : Nat) (hi : i < n) (hj : j < cols) :
    ((List.range n).flatMap (fun i => (List.range cols).map (fun j => (i, j))))[i * cols + j]? =
      some (i, j) := by
  induction n with
  | zero => omega
  | succ n ih =>
    rw [List.range_succ, List.flatMap_append]
    by_cases h : i < n
    · have hlt : i * cols + j <
          ((List.range n).flatMap (fun i => (List.range cols).map (fun j => (i, j)))).length := by
        rw [scanPrefix_length]
        have : (i + 1) * cols ≤ n * cols := Nat.mul_le_mul_right cols h
        rw [Nat.succ_mul] at this
        omega
      rw [List.getElem?_append_left hlt]
      exact ih h
    · have hin : i = n := by omega
      subst hin
      have hge : ((List.range i).flatMap
          (fun i => (List.range cols).map (fun j => (i, j)))).length ≤ i * cols + j := by
        rw [scanPrefix_length]
        omega
      rw [List.getElem?_append_right hge, scanPrefix_length]
      simp [List.getElem?_range hj]

theorem scanOrder_getElem (i j : Nat) (hi : i < rows) (hj : j < cols) :
    scanOrder[i * cols + j]? = some (i, j) :=
  scanPrefix_getElem rows i j hi hj

theorem cellsHolding_ne_nil_iff (map : Grid) (t : Nat) :
    cellsHolding map t ≠ [] ↔ ∃ i j, i < rows ∧ j < cols ∧ getCell map i j = some t := by
  constructor
  · intro h
    obtain ⟨c, hc⟩ := List.exists_mem_of_ne_nil _ h
    obtain ⟨⟨h1, h2⟩, h3⟩ := (mem_cellsHolding map t c).mp hc
    exact ⟨c.1, c.2, h1, h2, h3⟩
  · rintro ⟨i, j, hi, hj, h⟩ hnil
    have : (i, j) ∈ cellsHolding map t := (mem_cellsHolding map t (i, j)).mpr ⟨⟨hi, hj⟩, h⟩
    rw [hnil] at this
    exact List.not_mem_nil _ this

theorem mem_groupKeys_iff {map : Grid} {groups : Groups}
    (hg : ∀ t, getGroup groups t =
      if cellsHolding map t = [] then none else some (cellsHolding map t)) (t : Nat) :
    t ∈ groupKeys groups ↔ cellsHolding map t ≠ [] := by
  have h1 := getGroup_eq_none_iff groups t
  rw [hg t] at h1
  by_cases hnil : cellsHolding map t = []
  · simp only [hnil, if_true, true_iff] at h1
    simp [hnil, h1]
  · simp only [hnil, if_false] at h1
    simp only [ne_eq, hnil, not_false_eq_true, iff_true]
    by_contra hcon
    exact absurd (h1.mpr hcon) (by simp)

/-- C9: on a 30x10 grid `grouped` returns an object in which `t` is a key exactly when
some cell holds `t`; the array stored under a key `t` is the list of all coordinates whose
cell holds `t`, in scan order (row 0 first, then by column: `(i, j)` is at position
`i * cols + j` of the scan); the keys are distinct and there are as many groups as
distinct TileIds in the grid. -/
theorem grouped_by_tile (map : Grid) (hmap : WellShaped map) :
    ∃ groups, grouped map = some groups ∧
      (∀ t, t ∈ groupKeys groups ↔ ∃ i j, i < rows ∧ j < cols ∧ getCell map i j = some t) ∧
      (∀ t, t ∈ groupKeys groups → getGroup groups t = some (cellsHolding map t)) ∧
      (∀ t cells, (t, cells) ∈ groups →
        cells = scanOrder.filter (fun c => getCell map c.1 c.2 == some t)) ∧
      (∀ i j, i < rows → j < cols → scanOrder[i * cols + j]? = some (i, j)) ∧
      (groupKeys groups).Nodup ∧
      groups.length = (distinctTiles map).length := by
  obtain ⟨groups, hgrouped, hnodup, hget⟩ := grouped_spec map hmap
  have hkey : ∀ t, t ∈ groupKeys groups ↔
      ∃ i j, i < rows ∧ j < cols ∧ getCell map i j = some t := fun t =>
    (mem_groupKeys_iff hget t).trans (cellsHolding_ne_nil_iff map t)
  have hsome : ∀ t, t ∈ groupKeys groups → getGroup groups t = some (cellsHolding map t) := by
    intro t ht
    have hne := (mem_groupKeys_iff hget t).mp ht
    rw [hget t]
    simp [hne]
  refine ⟨groups, hgrouped, hkey, hsome, ?_, ?_, hnodup, ?_⟩
  · intro t cells hmem
    have h1 := getGroup_of_mem hnodup hmem
    have ht : t ∈ groupKeys groups := List.mem_map.mpr ⟨(t, cells), hmem, rfl⟩
    rw [hsome t ht] at h1
    exact (Option.some.inj h1).symm
  · intro i j hi hj
    exact scanOrder_getElem i j hi hj
  · have hperm : (groupKeys groups).Perm (distinctTiles map) := by
      unfold distinctTiles
      rw [List.perm_ext_iff_of_nodup hnodup (List.nodup_dedup _)]
      intro t
      rw [hkey t, List.mem_dedup]
      constructor
      · rintro ⟨i, j, hi, hj, h⟩
        obtain ⟨idx, hidx, hmem⟩ := getCell_inBounds hmap hi hj
        rw [hidx] at h
        cases h
        exact hmem
      · exact mem_flatten_getCell hmap
    have := hperm.length_eq
    simpa [groupKeys] using this

/-- Witness for C9: a grid holding every TileId of the catalog. -/
theorem grouped_by_tile_witness :
    ∃ groups, grouped sampleMap = some groups ∧
      (∀ t, t ∈ groupKeys groups ↔
        ∃ i j, i < rows ∧ j < cols ∧ getCell sampleMap i j = some t) ∧
      (∀ t, t ∈ groupKeys groups → getGroup groups t = some (cellsHolding sampleMap t)) ∧
      (∀ t cells, (t, cells) ∈ groups →
        cells = scanOrder.filter (fun c => getCell sampleMap c.1 c.2 == some t)) ∧
      (∀ i j, i < rows → j < cols → scanOrder[i * cols + j]? = some (i, j)) ∧
      (groupKeys groups).Nodup ∧
      groups.length = (distinctTiles sampleMap).length :=
  grouped_by_tile sampleMap (by decide)

/-- C1: on a 30x10 grid the groups of `grouped` partition the coordinate space: the keys
are distinct, every coordinate `(i, j)` with `i < 30` and `j < 10` occurs in exactly one
group and exactly once in it, and no group holds a coordinate outside that range. -/
theorem grouped_partition (map : Grid) (hmap : WellShaped map) :
    ∃ groups, grouped map = some groups ∧ (groupKeys groups).Nodup ∧
      (∀ i j, i < 30 → j < 10 →
        ∃ idx cells, (idx, cells) ∈ groups ∧ cells.count (i, j) = 1 ∧
          ∀ idx2 cells2, (idx2, cells2) ∈ groups → (i, j) ∈ cells2 →
            idx2 = idx ∧ cells2 = cells) ∧
      (∀ idx cells, (idx, cells) ∈ groups → ∀ c ∈ cells, c.1 < 30 ∧ c.2 < 10) := by
  obtain ⟨groups, hgrouped, hnodup, hget⟩ := grouped_spec map hmap
  have hentry : ∀ t cells, (t, cells) ∈ groups → cells = cellsHolding map t ∧ cells ≠ [] := by
    intro t cells hmem
    have h1 := getGroup_of_mem hnodup hmem
    rw [hget t] at h1
    by_cases hnil : cellsHolding map t = []
    · simp [hnil] at h1
    · simp only [hnil, if_false] at h1
      have := (Option.some.inj h1).symm
      exact ⟨this, by rw [this]; exact hnil⟩
  refine ⟨groups, hgrouped, hnodup, ?_, ?_⟩
  · intro i j hi hj
    obtain ⟨idx, hidx, _⟩ := getCell_inBounds hmap hi hj
    have hmemc : (i, j) ∈ cellsHolding map idx :=
      (mem_cellsHolding map idx (i, j)).mpr ⟨⟨hi, hj⟩, hidx⟩
    have hne : cellsHolding map idx ≠ [] := List.ne_nil_of_mem hmemc
    have hg : getGroup groups idx = some (cellsHolding map idx) := by
      rw [hget idx]; simp [hne]
    refine ⟨idx, cellsHolding map idx, getGroup_mem hg, ?_, ?_⟩
    · exact count_eq_one_of_nodup _ _ (scanOrder_nodup.filter _) hmemc
    · intro idx2 cells2 hmem2 hc2
      obtain ⟨hcells2, _⟩ := hentry idx2 cells2 hmem2
      rw [hcells2] at hc2
      have h3 := ((mem_cellsHolding map idx2 (i, j)).mp hc2).2
      rw [hidx] at h3
      have h4 : idx = idx2 := Option.some.inj h3
      subst h4
      exact ⟨rfl, hcells2⟩
  · intro idx cells hmem c hc
    obtain ⟨hcells, _⟩ := hentry idx cells hmem
    rw [hcells] at hc
    exact ((mem_cellsHolding map idx c).mp hc).1

/-- Witness for C1: a grid holding every TileId of the catalog. -/
theorem grouped_partition_witness :
    ∃ groups, grouped sampleMap = some groups ∧ (groupKeys groups).Nodup ∧
      (∀ i j, i < 30 → j < 10 →
        ∃ idx cells, (idx, cells) ∈ groups ∧ cells.count (i, j) = 1 ∧
          ∀ idx2 cells2, (idx2, cells2) ∈ groups → (i, j) ∈ cells2 →
            idx2 = idx ∧ cells2 = cells) ∧
      (∀ idx cells, (idx, cells) ∈ groups → ∀ c ∈ cells, c.1 < 30 ∧ c.2 < 10) :=
  grouped_partition sampleMap (by decide)

end MapEditor
